import Mathlib

/-!
Shallow embedding of the GDG-StudyJam admin panel upload pipeline
(`src/app.py`): the `normalize_name` canonicalizer, the schema map built
from the participant table's columns, and the per-row reconciliation loop
of `upload_file`, with the Supabase store modelled as an abstract oracle
returning either an error or a response carrying the post-update records
and an optional affected-row count.
-/

namespace GDGAdmin

/-! ## Canonicalizer (`normalize_name`, src/app.py lines 32-39) -/

/-- ASCII lowercasing of one character, modelling Python `str.lower` on the
character range the application works with. -/
def pyLowerChar (c : Char) : Char :=
  if 65 ≤ c.toNat ∧ c.toNat ≤ 90 then Char.ofNat (c.toNat + 32) else c

/-- Python whitespace characters recognised by `str.strip()`. -/
def isPySpace (c : Char) : Bool :=
  c.toNat = 32 || c.toNat = 9 || c.toNat = 10 || c.toNat = 13 ||
    c.toNat = 11 || c.toNat = 12

/-- Characters kept verbatim by the `re.sub(r'[^a-z0-9]+', '_', s)` step:
lowercase ASCII letters and digits. -/
def isLowerAlnum (c : Char) : Bool :=
  (97 ≤ c.toNat && c.toNat ≤ 122) || (48 ≤ c.toNat && c.toNat ≤ 57)

/-- One-character substitution performed by the regex step: characters
outside `[a-z0-9]` become an underscore. -/
def subChar (c : Char) : Char := if isLowerAlnum c then c else '_'

/-- Collapse every run of consecutive underscores to a single underscore.
Composed with `subChar` this is exactly `re.sub(r'[^a-z0-9]+', '_', s)`:
a maximal run of non-alphanumeric characters becomes one underscore. -/
def squeeze : List Char → List Char
  | [] => []
  | [c] => [c]
  | a :: b :: rest =>
    if a = '_' ∧ b = '_' then squeeze (b :: rest)
    else a :: squeeze (b :: rest)

/-- "No two adjacent underscores" invariant of the regex-collapse step. -/
def noDoubleUnderscore (l : List Char) : Prop :=
  List.Chain' (fun a b => ¬(a = '_' ∧ b = '_')) l

/-- Drop the longest run of characters satisfying `p` from the end. -/
def dropTail (p : Char → Bool) (l : List Char) : List Char :=
  (l.reverse.dropWhile p).reverse

/-- Python `str.strip`-style trimming at both ends. -/
def stripBoth (p : Char → Bool) (l : List Char) : List Char :=
  dropTail p (l.dropWhile p)

/-- Fuel-indexed worker for `replaceAll`; the fuel only serves structural
termination and is irrelevant once it reaches the list length. -/
def replaceAllFuel (pat repl : List Char) : Nat → List Char → List Char
  | _, [] => []
  | 0, l => l
  | fuel + 1, c :: rest =>
    if pat ≠ [] ∧ pat.isPrefixOf (c :: rest) then
      repl ++ replaceAllFuel pat repl fuel ((c :: rest).drop pat.length)
    else
      c :: replaceAllFuel pat repl fuel rest

/-- Python `str.replace(pat, repl)`: replace every (leftmost, non
overlapping) occurrence of the non-empty pattern. -/
def replaceAll (pat repl l : List Char) : List Char :=
  replaceAllFuel pat repl l.length l

/-- The bracket tag removed by `normalize_name`. -/
def skillBadgeTag : List Char := "[skill badge]".data

/-- Python `str.lower` on a whole string. -/
def pyLower (s : String) : String := ⟨s.data.map pyLowerChar⟩

/-- Python `str.strip()` on a whole string. -/
def pyStrip (s : String) : String := ⟨stripBoth isPySpace s.data⟩

/-- The character-list pipeline of `normalize_name`: lowercase, remove the
literal `[skill badge]`, strip whitespace, fold `gen ai` to `genai`,
replace each maximal run of characters outside `[a-z0-9]` by one
underscore, and trim underscores at both ends. -/
def normalizeL (l : List Char) : List Char :=
  stripBoth (fun c => c == '_')
    (squeeze
      ((replaceAll "gen ai".data "genai".data
        (stripBoth isPySpace
          (replaceAll skillBadgeTag []
            (l.map pyLowerChar)))).map subChar))

/-- The function `normalize_name` from src/app.py lines 32-39. -/
def normalize_name (s : String) : String := ⟨normalizeL s.data⟩

/-! ## Schema map (dict semantics, src/app.py line 70) -/

/-- Python `dict` assignment `d[k] = v`: overwrite in place when the key
exists (keeping its position), append otherwise. -/
def dictInsert (d : List (String × String)) (k v : String) :
    List (String × String) :=
  if d.any (fun p => p.1 == k) then
    d.map (fun p => if p.1 == k then (k, v) else p)
  else d ++ [(k, v)]

/-- Python `dict.get`. -/
def dictGet (d : List (String × String)) (k : String) : Option String :=
  match d.find? (fun p => p.1 == k) with
  | some p => some p.2
  | none => none

/-- The dict comprehension building `column_map` from the discovered
column names (src/app.py line 70); later columns overwrite earlier ones on key
collision, as in a Python dict comprehension. -/
def column_map (cols : List String) : List (String × String) :=
  cols.foldl (fun m c => dictInsert m (normalize_name c) c) []

/-! ## Store model and reconciliation engine (src/app.py lines 47-148) -/

/-- The store's answer to an update call, as consumed by the code: the
`name` field of each returned record (`response.data[i]["name"]`) and the
optional affected-row count (`response.count`). -/
structure StoreResponse where
  data : List String
  count : Option Int
deriving DecidableEq

/-- The external participant store's update-by-email operation
(`supabase.table(...).update(d).eq('email', e).execute()`), abstracted as
an oracle that either raises (`.error`) or returns a response. -/
abbrev Store := String → List (String × String) → Except String StoreResponse

/-- One update request issued to the store: the email used in the equality
filter, and the field → value payload. -/
abbrev Call := String × List (String × String)

/-- One parsed upload row: the three cells read from the dataframe, with
`none` modelling a pandas `NaN` (blank/absent cell). -/
structure Row where
  user_name : Option String
  email : Option String
  completed_labs : Option String
deriving DecidableEq

/-- Python `str.split(sep)` on a one-character separator: every occurrence
splits, empty pieces are kept, and the empty string yields `[""]`. -/
def pySplit (sep : Char) : List Char → List (List Char)
  | [] => [[]]
  | c :: rest =>
    match pySplit sep rest with
    | [] => [[]]
    | p :: ps => if c = sep then [] :: p :: ps else (c :: p) :: ps

/-- The per-row label list: split the cell on `|` and strip each piece
(src/app.py line 101). -/
def effectiveLabs (s : String) : List String :=
  (pySplit '|' s.data).map (fun l => ⟨stripBoth isPySpace l⟩)

def mismatchMsg (lab : String) : String :=
  s!"'{lab}' from file did not match any database column."

def failMsg (userName err : String) : String :=
  s!"FAILED to update labs for '{userName}'. Error: {err}"

def noNewMsg (userName : String) : String :=
  s!"No new updates for '{userName}' (data may already be current)."

def successMsg (userName : String) (n : Nat) (cols : List String) : String :=
  let joined := String.intercalate ", " cols
  s!"Updated {n} labs for '{userName}': {joined}."

/-- Message of the `IndexError` raised by `response.data[0]` on an empty
list (src/app.py line 121). -/
def indexErrMsg : String := "list index out of range"

/-- Processing of one label inside the per-row loop (src/app.py lines
104-115): skip empty labels, stage matched ones into `update_data`, and
record unmatched ones in the mismatch log. The Python truthiness test
`if original_column_name:` also treats an empty column name as a miss. -/
def stageLab (cmap : List (String × String))
    (acc : List (String × String) × List String) (lab : String) :
    List (String × String) × List String :=
  if lab = "" then acc
  else
    match dictGet cmap (normalize_name lab) with
    | some orig =>
      if orig = "" then (acc.1, acc.2 ++ [mismatchMsg (pyStrip lab)])
      else (dictInsert acc.1 orig "Yes", acc.2)
    | none => (acc.1, acc.2 ++ [mismatchMsg (pyStrip lab)])

/-- The `update_data` dict and the mismatch entries accumulated over one
row's label list. -/
def stageLabs (cmap : List (String × String)) (labs : List String) :
    List (String × String) × List String :=
  labs.foldl (stageLab cmap) ([], [])

/-- What one row contributes to the run: log lines, the amount added to
`total_updates`, mismatch entries, and the update calls issued. -/
structure RowOutcome where
  log : List String
  updates : Nat
  mismatches : List String
  calls : List Call
deriving DecidableEq

def emptyOutcome : RowOutcome := ⟨[], 0, [], []⟩

/-- The display name: the stripped name cell, falling back to the
stripped email when the name cell is NaN (src/app.py line 98). -/
def displayName (r : Row) : String :=
  match r.user_name with
  | some u => pyStrip u
  | none =>
    match r.email with
    | some e => pyStrip e
    | none => ""

/-- The body of the per-row loop (src/app.py lines 89-134). Rows with an
absent email or an absent/blank label string contribute nothing. When the
staged payload is non-empty one update call is issued; a raised store
error is caught and logged as a FAILED line. A successful call first
evaluates `response.data[0]["name"]` (the debug print), so an empty
`response.data` raises `IndexError`, caught by the same handler; otherwise
the reported count decides between the success line and the
"no new updates" line. -/
def processRow (cmap : List (String × String)) (store : Store) (r : Row) :
    RowOutcome :=
  match r.email with
  | none => emptyOutcome
  | some emailRaw =>
    let email := pyStrip emailRaw
    let user_name := displayName r
    match r.completed_labs with
    | none => emptyOutcome
    | some labsStr =>
      if pyStrip labsStr = "" then emptyOutcome
      else
        let staged := stageLabs cmap (effectiveLabs labsStr)
        if staged.1 = [] then ⟨[], 0, staged.2, []⟩
        else
          match store email staged.1 with
          | .error e => ⟨[failMsg user_name e], 0, staged.2, [(email, staged.1)]⟩
          | .ok resp =>
            match resp.data with
            | [] => ⟨[failMsg user_name indexErrMsg], 0, staged.2, [(email, staged.1)]⟩
            | _ :: _ =>
              match resp.count with
              | some c =>
                if 0 < c then
                  ⟨[successMsg user_name staged.1.length (staged.1.map Prod.fst)],
                    staged.1.length, staged.2, [(email, staged.1)]⟩
                else ⟨[noNewMsg user_name], 0, staged.2, [(email, staged.1)]⟩
              | none => ⟨[noNewMsg user_name], 0, staged.2, [(email, staged.1)]⟩

/-- The run-global accumulators of `upload_file`: `update_log`,
`total_updates`, the mismatch entries, and (for auditing) every store
update call issued. -/
structure RunState where
  update_log : List String
  total_updates : Nat
  mismatched : List String
  calls : List Call
deriving DecidableEq

def initState : RunState := ⟨[], 0, [], []⟩

def stepRow (cmap : List (String × String)) (store : Store)
    (st : RunState) (r : Row) : RunState :=
  let o := processRow cmap store r
  ⟨st.update_log ++ o.log, st.total_updates + o.updates,
    st.mismatched ++ o.mismatches, st.calls ++ o.calls⟩

/-- The `for index, row in df.iterrows()` loop. -/
def runEngine (cmap : List (String × String)) (store : Store)
    (rows : List Row) : RunState :=
  rows.foldl (stepRow cmap store) initState

/-- Code-point lexicographic comparison, Python's `<=` on strings. -/
def codeLe : List Char → List Char → Bool
  | [], _ => true
  | _ :: _, [] => false
  | a :: as, b :: bs =>
    if a.toNat < b.toNat then true
    else if a.toNat = b.toNat then codeLe as bs
    else false

def strLe (a b : String) : Bool := codeLe a.data b.data

/-- The report form `sorted(list(mismatched_labs_log))` (src/app.py line
139): the set's distinct elements in ascending code-point order. -/
def sortedMismatches (msgs : List String) : List String :=
  List.insertionSort (fun a b => strLe a b = true) msgs.dedup

/-- The `final_log` dictionary (src/app.py lines 136-140). -/
structure FinalLog where
  updates : List String
  users_not_found : List String
  mismatched_lab_names : List String
deriving DecidableEq

/-- The uploaded tabular file: its column set and its rows. -/
structure UploadInput where
  columns : List String
  rows : List Row

def requiredColumns : List String :=
  ["User Name", "User Email", "Names of Completed Skill Badges"]

def missingColumnsMsg : String :=
  "File missing required columns: 'User Name', 'User Email', and 'Names of Completed Skill Badges'."

def schemaUnavailableMsg : String :=
  "Could not fetch schema. Table 'participants' might be empty."

/-- The route handler `upload_file` (src/app.py lines 47-148), from the
schema probe on:
`probeData` is `response.data` of the one-record sample query (each entry
the column-name list of a record), `store` the update collaborator, and
`input` the parsed file. Returns the HTTP-level result together with the
list of store update calls that were issued. -/
def upload_file (probeData : List (List String)) (store : Store)
    (input : UploadInput) : Except String (String × FinalLog) × List Call :=
  match probeData with
  | [] => (.error schemaUnavailableMsg, [])
  | cols :: _ =>
    let cmap := column_map cols
    if requiredColumns.all (fun c => input.columns.contains c) then
      let st := runEngine cmap store input.rows
      let n := st.total_updates
      (.ok (s!"Processing complete. Attempted to apply {n} lab completion updates.",
        ⟨st.update_log, [], sortedMismatches st.mismatched⟩), st.calls)
    else (.error missingColumnsMsg, [])

/-- The `update_data` payload one row's label string stages against a
given schema map. -/
def update_data (cmap : List (String × String)) (ls : String) :
    List (String × String) :=
  (stageLabs cmap (effectiveLabs ls)).1

/-- The mismatch entries one row's label string contributes. -/
def mismatch_entries (cmap : List (String × String)) (ls : String) :
    List String :=
  (stageLabs cmap (effectiveLabs ls)).2

/-! Concrete fixtures used by the claim witnesses. -/

def cmapFB : List (String × String) := column_map ["Foo", "Bar"]

def storeOk1 : Store := fun _ _ => .ok ⟨["N"], some 1⟩

def storeEmpty0 : Store := fun _ _ => .ok ⟨[], some 0⟩

/-- A store that raises exactly for the email "bad@x.com". -/
def storeSel : Store := fun e _ =>
  if e = "bad@x.com" then .error "boom" else .ok ⟨["N"], some 1⟩

/-! ## Sanity evaluations -/

example : normalize_name "[Skill Badge] Foo" = "foo" := rfl
example : normalize_name "Gen AI Apps!" = "genai_apps" := rfl
example : normalize_name "  The Basics: of --- Cloud  " = "the_basics_of_cloud" := rfl
example : normalize_name "" = "" := rfl

example : column_map ["Foo", "Bar"] = [("foo", "Foo"), ("bar", "Bar")] := rfl
example : dictGet (column_map ["Foo"]) "foo" = some "Foo" := rfl
example : dictGet (column_map ["Foo"]) "bar" = none := rfl

example :
    processRow (column_map ["Foo", "Bar"]) (fun _ _ => .ok ⟨["N"], some 1⟩)
      ⟨some "U ", some " a@x.com ", some "Foo | [Skill Badge] Bar"⟩
    = ⟨["Updated 2 labs for 'U': Foo, Bar."], 2, [],
        [("a@x.com", [("Foo", "Yes"), ("Bar", "Yes")])]⟩ := rfl

example :
    processRow (column_map ["Foo"]) (fun _ _ => .ok ⟨[], some 0⟩)
      ⟨some "U", some "u@x.com", some "Foo"⟩
    = ⟨["FAILED to update labs for 'U'. Error: list index out of range"],
        0, [], [("u@x.com", [("Foo", "Yes")])]⟩ := rfl

/-! ## Unfolding equations for `replaceAll` -/

theorem replaceAllFuel_congr (pat repl : List Char) :
    ∀ f₁ f₂ l, l.length ≤ f₁ → l.length ≤ f₂ →
      replaceAllFuel pat repl f₁ l = replaceAllFuel pat repl f₂ l := by
  intro f₁
  induction f₁ with
  | zero =>
    intro f₂ l h1 _
    have : l = [] := List.eq_nil_of_length_eq_zero (Nat.le_zero.mp h1)
    subst this
    cases f₂ <;> rfl
  | succ f ih =>
    intro f₂ l h1 h2
    cases l with
    | nil => cases f₂ <;> rfl
    | cons c rest =>
      cases f₂ with
      | zero => simp at h2
      | succ f₂' =>
        simp only [replaceAllFuel]
        by_cases hp : pat ≠ [] ∧ pat.isPrefixOf (c :: rest)
        · simp only [if_pos hp]
          have hlen : 0 < pat.length := List.length_pos.mpr hp.1
          have hd : ((c :: rest).drop pat.length).length ≤ rest.length := by
            simp only [List.length_drop, List.length_cons]; omega
          simp only [List.length_cons] at h1 h2
          exact congrArg (repl ++ ·) (ih _ _ (hd.trans (by omega)) (hd.trans (by omega)))
        · simp only [if_neg hp]
          simp only [List.length_cons] at h1 h2
          exact congrArg (c :: ·) (ih _ _ (by omega) (by omega))

theorem replaceAll_nil (pat repl : List Char) : replaceAll pat repl [] = [] := rfl

theorem replaceAll_cons (pat repl : List Char) (c : Char) (rest : List Char) :
    replaceAll pat repl (c :: rest) =
      if pat ≠ [] ∧ pat.isPrefixOf (c :: rest) then
        repl ++ replaceAll pat repl ((c :: rest).drop pat.length)
      else c :: replaceAll pat repl rest := by
  show replaceAllFuel pat repl (rest.length + 1) (c :: rest) = _
  simp only [replaceAllFuel]
  by_cases hp : pat ≠ [] ∧ pat.isPrefixOf (c :: rest)
  · simp only [if_pos hp]
    have hlen : 0 < pat.length := List.length_pos.mpr hp.1
    refine congrArg (repl ++ ·) (replaceAllFuel_congr pat repl _ _ _ ?_ le_rfl)
    simp only [List.length_drop, List.length_cons]; omega
  · simp only [if_neg hp]
    exact congrArg (c :: ·) (replaceAllFuel_congr pat repl _ _ _ le_rfl le_rfl)

theorem mem_of_isPrefixOf {l₁ l₂ : List Char} (h : l₁.isPrefixOf l₂ = true)
    {a : Char} (ha : a ∈ l₁) : a ∈ l₂ := by
  induction l₁ generalizing l₂ with
  | nil => cases ha
  | cons b bs ih =>
    cases l₂ with
    | nil => simp [List.isPrefixOf] at h
    | cons c cs =>
      simp only [List.isPrefixOf, Bool.and_eq_true, beq_iff_eq] at h
      rcases List.mem_cons.mp ha with rfl | ha'
      · exact h.1 ▸ List.mem_cons_self _ _
      · exact List.mem_cons_of_mem _ (ih h.2 ha')

theorem isPrefixOf_append_self : ∀ l t : List Char, l.isPrefixOf (l ++ t) = true := by
  intro l t
  induction l with
  | nil => simp [List.isPrefixOf]
  | cons c cs ih => simp [List.isPrefixOf, ih]

/-- If some character of the (nonempty) pattern does not occur in the list,
`replaceAll` leaves the list unchanged. -/
theorem replaceAll_eq_self_of_not_mem (pat repl : List Char) {x : Char}
    (hx : x ∈ pat) : ∀ l, x ∉ l → replaceAll pat repl l = l := by
  intro l
  induction l with
  | nil => intro _; rfl
  | cons c rest ih =>
    intro hnl
    rw [replaceAll_cons]
    have hcond : ¬(pat ≠ [] ∧ pat.isPrefixOf (c :: rest) = true) := by
      rintro ⟨-, hpre⟩
      exact hnl (mem_of_isPrefixOf hpre hx)
    rw [if_neg hcond]
    exact congrArg (c :: ·) (ih fun hm => hnl (List.mem_cons_of_mem _ hm))

/-- Pattern occurrence right at the head is replaced. -/
theorem replaceAll_append_self (pat repl xs : List Char) (hp : pat ≠ []) :
    replaceAll pat repl (pat ++ xs) = repl ++ replaceAll pat repl xs := by
  cases pat with
  | nil => exact absurd rfl hp
  | cons p ps =>
    rw [List.cons_append, replaceAll_cons]
    rw [if_pos ⟨hp, by rw [← List.cons_append]; exact isPrefixOf_append_self _ _⟩]
    rw [← List.cons_append, List.drop_left]

/-! ## `dropWhile` / `stripBoth` lemmas -/

theorem dropWhile_head_false (p : Char → Bool) :
    ∀ l : List Char, ∀ c, (l.dropWhile p).head? = some c → p c = false := by
  intro l
  induction l with
  | nil => intro c h; simp [List.dropWhile] at h
  | cons a rest ih =>
    intro c h
    by_cases hp : p a
    · rw [List.dropWhile_cons_of_pos hp] at h; exact ih c h
    · rw [List.dropWhile_cons_of_neg hp] at h
      simp only [List.head?_cons, Option.some.injEq] at h
      subst h; exact Bool.eq_false_iff.mpr hp

theorem dropWhile_eq_self_of_head (p : Char → Bool) (l : List Char)
    (h : ∀ c, l.head? = some c → p c = false) : l.dropWhile p = l := by
  cases l with
  | nil => rfl
  | cons a rest => exact List.dropWhile_cons_of_neg (by simp [h a rfl])

theorem dropWhile_idem (p : Char → Bool) (l : List Char) :
    (l.dropWhile p).dropWhile p = l.dropWhile p :=
  dropWhile_eq_self_of_head p _ (dropWhile_head_false p l)

theorem dropWhile_eq_self_of_all (p : Char → Bool) (l : List Char)
    (h : ∀ c ∈ l, p c = false) : l.dropWhile p = l := by
  refine dropWhile_eq_self_of_head p l fun c hc => h c ?_
  cases l with
  | nil => simp at hc
  | cons a rest =>
    simp only [List.head?_cons, Option.some.injEq] at hc
    exact hc ▸ List.mem_cons_self _ _

theorem dropWhile_suffix_ex (p : Char → Bool) (l : List Char) :
    ∃ t, l = t ++ l.dropWhile p := by
  induction l with
  | nil => exact ⟨[], rfl⟩
  | cons a rest ih =>
    by_cases hp : p a
    · rcases ih with ⟨t, ht⟩
      exact ⟨a :: t, by rw [List.dropWhile_cons_of_pos hp, List.cons_append, ← ht]⟩
    · exact ⟨[], by rw [List.dropWhile_cons_of_neg hp]; rfl⟩

theorem mem_dropWhile_imp (p : Char → Bool) (l : List Char) {a : Char}
    (h : a ∈ l.dropWhile p) : a ∈ l := by
  rcases dropWhile_suffix_ex p l with ⟨t, ht⟩
  rw [ht]; exact List.mem_append_right t h

theorem stripBoth_eq_self_of_all (p : Char → Bool) (l : List Char)
    (h : ∀ c ∈ l, p c = false) : stripBoth p l = l := by
  unfold stripBoth dropTail
  rw [dropWhile_eq_self_of_all p l h,
      dropWhile_eq_self_of_all p l.reverse (fun c hc => h c (List.mem_reverse.mp hc)),
      List.reverse_reverse]

theorem mem_stripBoth_imp (p : Char → Bool) (l : List Char) {a : Char}
    (h : a ∈ stripBoth p l) : a ∈ l := by
  unfold stripBoth dropTail at h
  rw [List.mem_reverse] at h
  exact mem_dropWhile_imp p _ (List.mem_reverse.mp (mem_dropWhile_imp p _ h))

theorem stripBoth_infix_ex (p : Char → Bool) (l : List Char) :
    ∃ t u, l = t ++ stripBoth p l ++ u := by
  rcases dropWhile_suffix_ex p l with ⟨t, ht⟩
  rcases dropWhile_suffix_ex p (l.dropWhile p).reverse with ⟨u, hu⟩
  have hm2 : l.dropWhile p =
      ((l.dropWhile p).reverse.dropWhile p).reverse ++ u.reverse := by
    have h := congrArg List.reverse hu
    rw [List.reverse_reverse, List.reverse_append] at h
    exact h
  refine ⟨t, u.reverse, ?_⟩
  calc l = t ++ l.dropWhile p := ht
    _ = t ++ (((l.dropWhile p).reverse.dropWhile p).reverse ++ u.reverse) := by
        rw [← hm2]
    _ = t ++ ((l.dropWhile p).reverse.dropWhile p).reverse ++ u.reverse := by
        rw [List.append_assoc]
    _ = t ++ stripBoth p l ++ u.reverse := rfl

/-! ## Idempotence machinery for the canonicalizer -/

theorem dropWhile_eq_stripBoth_append (p : Char → Bool) (l : List Char) :
    ∃ u, l.dropWhile p = stripBoth p l ++ u := by
  rcases dropWhile_suffix_ex p (l.dropWhile p).reverse with ⟨u, hu⟩
  have h := congrArg List.reverse hu
  rw [List.reverse_reverse, List.reverse_append] at h
  exact ⟨u.reverse, h⟩

theorem stripBoth_head_false (p : Char → Bool) (l : List Char) {c : Char}
    (hc : (stripBoth p l).head? = some c) : p c = false := by
  rcases dropWhile_eq_stripBoth_append p l with ⟨u, hu⟩
  apply dropWhile_head_false p l
  rw [hu]
  cases hsb : stripBoth p l with
  | nil => rw [hsb] at hc; simp at hc
  | cons a as =>
    rw [hsb] at hc
    simp only [List.head?_cons, Option.some.injEq] at hc
    simp [hc]

theorem stripBoth_idem (p : Char → Bool) (l : List Char) :
    stripBoth p (stripBoth p l) = stripBoth p l := by
  have h1 : (stripBoth p l).dropWhile p = stripBoth p l :=
    dropWhile_eq_self_of_head p _ (fun _ hc => stripBoth_head_false p l hc)
  show dropTail p ((stripBoth p l).dropWhile p) = stripBoth p l
  rw [h1]
  show ((stripBoth p l).reverse.dropWhile p).reverse = stripBoth p l
  have h2 : (stripBoth p l).reverse = (l.dropWhile p).reverse.dropWhile p := by
    show (dropTail p (l.dropWhile p)).reverse = _
    unfold dropTail
    rw [List.reverse_reverse]
  rw [h2, dropWhile_idem, ← h2, List.reverse_reverse]

theorem chain'_stripBoth (p : Char → Bool) (l : List Char)
    (h : noDoubleUnderscore l) : noDoubleUnderscore (stripBoth p l) := by
  rcases stripBoth_infix_ex p l with ⟨t, u, hl⟩
  rw [hl] at h
  exact (List.chain'_append.mp (List.chain'_append.mp h).1).2.1

theorem squeeze_head? : ∀ (l : List Char) (b : Char),
    (squeeze (b :: l)).head? = some b := by
  intro l
  induction l with
  | nil => intro b; rfl
  | cons c rest ih =>
    intro b
    simp only [squeeze]
    by_cases h : b = '_' ∧ c = '_'
    · rw [if_pos h, ih c, h.1, h.2]
    · rw [if_neg h]; rfl

theorem mem_squeeze_imp : ∀ (l : List Char) (a : Char), a ∈ squeeze l → a ∈ l := by
  intro l
  induction l with
  | nil => intro a ha; exact absurd ha (by simp [squeeze])
  | cons b rest ih =>
    intro a ha
    cases rest with
    | nil => simpa [squeeze] using ha
    | cons c rs =>
      simp only [squeeze] at ha
      by_cases h : b = '_' ∧ c = '_'
      · rw [if_pos h] at ha
        exact List.mem_cons_of_mem _ (ih a ha)
      · rw [if_neg h] at ha
        rcases List.mem_cons.mp ha with rfl | ha'
        · exact List.mem_cons_self _ _
        · exact List.mem_cons_of_mem _ (ih a ha')

theorem squeeze_chain' : ∀ l : List Char, noDoubleUnderscore (squeeze l) := by
  intro l
  induction l with
  | nil => simp [squeeze, noDoubleUnderscore]
  | cons b rest ih =>
    cases rest with
    | nil => simp [squeeze, noDoubleUnderscore]
    | cons c rs =>
      simp only [squeeze]
      by_cases h : b = '_' ∧ c = '_'
      · rw [if_pos h]; exact ih
      · rw [if_neg h]
        refine List.chain'_cons'.mpr ⟨?_, ih⟩
        intro y hy
        rw [squeeze_head? rs c] at hy
        cases hy
        exact h

theorem squeeze_eq_self : ∀ l : List Char, noDoubleUnderscore l → squeeze l = l := by
  intro l
  induction l with
  | nil => intro _; rfl
  | cons b rest ih =>
    intro h
    cases rest with
    | nil => rfl
    | cons c rs =>
      have h' := List.chain'_cons.mp h
      simp only [squeeze]
      rw [if_neg h'.1]
      exact congrArg (b :: ·) (ih h'.2)

theorem good_char_toNat {c : Char} (h : isLowerAlnum c = true ∨ c = '_') :
    (97 ≤ c.toNat ∧ c.toNat ≤ 122) ∨ (48 ≤ c.toNat ∧ c.toNat ≤ 57) ∨ c.toNat = 95 := by
  rcases h with h | rfl
  · simp only [isLowerAlnum, Bool.or_eq_true, Bool.and_eq_true,
      decide_eq_true_eq] at h
    tauto
  · right; right; rfl

theorem pyLowerChar_eq_self {c : Char} (h : isLowerAlnum c = true ∨ c = '_') :
    pyLowerChar c = c := by
  have ht := good_char_toNat h
  unfold pyLowerChar
  rw [if_neg]; omega

theorem subChar_eq_self {c : Char} (h : isLowerAlnum c = true ∨ c = '_') :
    subChar c = c := by
  rcases h with h | rfl
  · unfold subChar; rw [if_pos h]
  · rfl

theorem isPySpace_false_of_good {c : Char} (h : isLowerAlnum c = true ∨ c = '_') :
    isPySpace c = false := by
  have ht := good_char_toNat h
  unfold isPySpace
  simp only [Bool.or_eq_false_iff, decide_eq_false_iff_not]
  omega

theorem ne_bracket_of_good {c : Char} (h : isLowerAlnum c = true ∨ c = '_') :
    c ≠ '[' := by
  intro hc
  subst hc
  exact absurd (good_char_toNat h) (by decide)

theorem ne_space_of_good {c : Char} (h : isLowerAlnum c = true ∨ c = '_') :
    c ≠ ' ' := by
  intro hc
  subst hc
  exact absurd (good_char_toNat h) (by decide)

theorem normalizeL_mem {l : List Char} {c : Char} (hc : c ∈ normalizeL l) :
    isLowerAlnum c = true ∨ c = '_' := by
  unfold normalizeL at hc
  have h1 := mem_stripBoth_imp _ _ hc
  have h2 := mem_squeeze_imp _ _ h1
  rcases List.mem_map.mp h2 with ⟨d, _, rfl⟩
  unfold subChar
  by_cases hd : isLowerAlnum d
  · rw [if_pos hd]; exact Or.inl hd
  · rw [if_neg hd]; exact Or.inr rfl

theorem normalizeL_chain' (l : List Char) : noDoubleUnderscore (normalizeL l) :=
  chain'_stripBoth _ _ (squeeze_chain' _)

theorem normalizeL_stripped (l : List Char) :
    stripBoth (fun c => c == '_') (normalizeL l) = normalizeL l :=
  stripBoth_idem _ _

theorem normalizeL_idem (l : List Char) :
    normalizeL (normalizeL l) = normalizeL l := by
  set r := normalizeL l with hr
  have hmem : ∀ c ∈ r, isLowerAlnum c = true ∨ c = '_' := fun _ hc => normalizeL_mem hc
  have h1 : r.map pyLowerChar = r := by
    have h := List.map_congr_left (fun a ha => pyLowerChar_eq_self (hmem a ha))
    simpa using h
  have h2 : replaceAll skillBadgeTag [] r = r :=
    replaceAll_eq_self_of_not_mem _ _ (show '[' ∈ skillBadgeTag by decide) r
      (fun hmem' => ne_bracket_of_good (hmem _ hmem') rfl)
  have h3 : stripBoth isPySpace r = r :=
    stripBoth_eq_self_of_all _ _ (fun c hc => isPySpace_false_of_good (hmem c hc))
  have h4 : replaceAll "gen ai".data "genai".data r = r :=
    replaceAll_eq_self_of_not_mem _ _ (show ' ' ∈ "gen ai".data by decide) r
      (fun hmem' => ne_space_of_good (hmem _ hmem') rfl)
  have h5 : r.map subChar = r := by
    have h := List.map_congr_left (fun a ha => subChar_eq_self (hmem a ha))
    simpa using h
  have h6 : squeeze r = r := by
    have hc := normalizeL_chain' l
    rw [← hr] at hc
    exact squeeze_eq_self r hc
  show stripBoth (fun c => c == '_')
      (squeeze ((replaceAll "gen ai".data "genai".data
        (stripBoth isPySpace (replaceAll skillBadgeTag []
          (r.map pyLowerChar)))).map subChar)) = r
  rw [h1, h2, h3, h4, h5, h6, hr]
  exact normalizeL_stripped l

theorem pyLowerChar_idem (c : Char) :
    pyLowerChar (pyLowerChar c) = pyLowerChar c := by
  unfold pyLowerChar
  by_cases h : 65 ≤ c.toNat ∧ c.toNat ≤ 90
  · rw [if_pos h]
    have ht : (Char.ofNat (c.toNat + 32)).toNat = c.toNat + 32 := by
      have hv : Nat.isValidChar (c.toNat + 32) := Or.inl (by omega)
      simp only [Char.ofNat, Char.ofNatAux, Char.toNat, UInt32.toNat]
      split
      · rfl
      · next h' => exact absurd hv h'
    rw [if_neg (by rw [ht]; omega)]
  · rw [if_neg h, if_neg h]

theorem normalizeL_skill_badge (l : List Char) :
    normalizeL ("[Skill Badge] ".data ++ l) = normalizeL (l.map pyLowerChar) := by
  unfold normalizeL
  have hmap : ("[Skill Badge] ".data ++ l).map pyLowerChar
      = skillBadgeTag ++ (' ' :: l.map pyLowerChar) := by
    rw [List.map_append]
    have hlit : ("[Skill Badge] ".data).map pyLowerChar = skillBadgeTag ++ [' '] := by
      decide
    rw [hlit, List.append_assoc]
    rfl
  have hidem : (l.map pyLowerChar).map pyLowerChar = l.map pyLowerChar := by
    rw [List.map_map]
    exact List.map_congr_left (fun a _ => pyLowerChar_idem a)
  rw [hmap, hidem,
      replaceAll_append_self _ _ _ (show skillBadgeTag ≠ [] by decide),
      List.nil_append, replaceAll_cons]
  rw [if_neg ?hcond]
  case hcond =>
    rintro ⟨-, hpre⟩
    have hsb : skillBadgeTag = '[' :: "skill badge]".data := rfl
    rw [hsb, List.isPrefixOf] at hpre
    simp at hpre
  have hstrip : stripBoth isPySpace
        (' ' :: replaceAll skillBadgeTag [] (l.map pyLowerChar))
      = stripBoth isPySpace (replaceAll skillBadgeTag [] (l.map pyLowerChar)) := by
    show dropTail isPySpace
        (List.dropWhile isPySpace (' ' :: replaceAll skillBadgeTag [] (l.map pyLowerChar)))
      = _
    rw [List.dropWhile_cons_of_pos (by decide)]
    rfl
  rw [hstrip]


/-! ## Dictionary and staging lemmas -/

theorem mem_dictInsert {d : List (String × String)} {k v : String}
    {p : String × String} (hp : p ∈ dictInsert d k v) : p ∈ d ∨ p = (k, v) := by
  unfold dictInsert at hp
  by_cases h : d.any (fun q => q.1 == k)
  · rw [if_pos h] at hp
    rcases List.mem_map.mp hp with ⟨q, hq, rfl⟩
    by_cases hk : q.1 == k
    · rw [if_pos hk]; right; rfl
    · rw [if_neg hk]; left; exact hq
  · rw [if_neg h] at hp
    rcases List.mem_append.mp hp with h' | h'
    · left; exact h'
    · right; exact List.mem_singleton.mp h'

theorem mem_dictInsert_self (d : List (String × String)) (k v : String) :
    (k, v) ∈ dictInsert d k v := by
  unfold dictInsert
  by_cases h : d.any (fun q => q.1 == k)
  · rw [if_pos h]
    rcases List.any_eq_true.mp h with ⟨q, hq, hqk⟩
    exact List.mem_map.mpr ⟨q, hq, by rw [if_pos hqk]⟩
  · rw [if_neg h]
    exact List.mem_append_right _ (List.mem_singleton.mpr rfl)

theorem mem_Yes_dictInsert {d : List (String × String)} {k₀ : String}
    (h : (k₀, "Yes") ∈ d) (k : String) : (k₀, "Yes") ∈ dictInsert d k "Yes" := by
  unfold dictInsert
  by_cases ha : d.any (fun q => q.1 == k)
  · rw [if_pos ha]
    refine List.mem_map.mpr ⟨(k₀, "Yes"), h, ?_⟩
    by_cases hk : ((k₀, "Yes") : String × String).1 == k
    · have hk' : k₀ = k := beq_iff_eq.mp hk
      subst hk'
      simp
    · rw [if_neg hk]
  · rw [if_neg ha]
    exact List.mem_append_left _ h

theorem dictInsert_keys (d : List (String × String)) (k v : String) :
    (dictInsert d k v).map Prod.fst =
      if d.any (fun q => q.1 == k) then d.map Prod.fst
      else d.map Prod.fst ++ [k] := by
  unfold dictInsert
  by_cases h : d.any (fun q => q.1 == k)
  · rw [if_pos h, if_pos h, List.map_map]
    apply List.map_congr_left
    intro p _
    by_cases hk : p.1 == k
    · simp only [Function.comp_apply, if_pos hk]
      exact (beq_iff_eq.mp hk).symm
    · simp only [Function.comp_apply, if_neg hk]
  · rw [if_neg h, if_neg h, List.map_append]
    rfl

theorem dictInsert_keys_nodup {d : List (String × String)}
    (h : (d.map Prod.fst).Nodup) (k v : String) :
    ((dictInsert d k v).map Prod.fst).Nodup := by
  rw [dictInsert_keys]
  by_cases hk : d.any (fun q => q.1 == k)
  · rwa [if_pos hk]
  · rw [if_neg hk]
    have hnk : k ∉ d.map Prod.fst := by
      intro hmem
      rcases List.mem_map.mp hmem with ⟨p, hp, rfl⟩
      rw [List.any_eq_true] at hk
      exact hk ⟨p, hp, beq_self_eq_true _⟩
    refine List.nodup_append.mpr ⟨h, List.nodup_singleton k, ?_⟩
    intro a ha ha'
    rw [List.mem_singleton.mp ha'] at ha
    exact hnk ha

theorem find?_key_eq : ∀ (d : List (String × String)) (k : String)
    (q : String × String), d.find? (fun p => p.1 == k) = some q → q.1 = k := by
  intro d k
  induction d with
  | nil => intro q h; cases h
  | cons p d ih =>
    intro q h
    by_cases hp : p.1 == k
    · simp only [List.find?, hp] at h
      cases h
      exact beq_iff_eq.mp hp
    · rw [Bool.not_eq_true] at hp
      simp only [List.find?, hp] at h
      exact ih q h

theorem dictGet_mem {d : List (String × String)} {k v : String}
    (h : dictGet d k = some v) : ∃ p ∈ d, p.1 = k ∧ p.2 = v := by
  unfold dictGet at h
  cases hf : d.find? (fun q => q.1 == k) with
  | none => rw [hf] at h; cases h
  | some q =>
    rw [hf] at h
    cases h
    exact ⟨q, List.mem_of_find?_eq_some hf, find?_key_eq d k q hf, rfl⟩

theorem stageLab_matched {cmap : List (String × String)}
    (acc : List (String × String) × List String) {lab orig : String}
    (h0 : lab ≠ "") (hg : dictGet cmap (normalize_name lab) = some orig)
    (ho : orig ≠ "") :
    stageLab cmap acc lab = (dictInsert acc.1 orig "Yes", acc.2) := by
  unfold stageLab
  rw [if_neg h0]
  simp only [hg]
  rw [if_neg ho]

theorem stageLab_matched_empty {cmap : List (String × String)}
    (acc : List (String × String) × List String) {lab : String}
    (h0 : lab ≠ "") (hg : dictGet cmap (normalize_name lab) = some "") :
    stageLab cmap acc lab = (acc.1, acc.2 ++ [mismatchMsg (pyStrip lab)]) := by
  unfold stageLab
  rw [if_neg h0]
  simp only [hg]
  simp

theorem stageLab_unmatched {cmap : List (String × String)}
    (acc : List (String × String) × List String) {lab : String}
    (h0 : lab ≠ "") (hg : dictGet cmap (normalize_name lab) = none) :
    stageLab cmap acc lab = (acc.1, acc.2 ++ [mismatchMsg (pyStrip lab)]) := by
  unfold stageLab
  rw [if_neg h0]
  simp only [hg]

/-- Every `stageLab` step either leaves the accumulator unchanged, stages
one matched field, or appends one mismatch entry. -/
theorem stageLab_cases (cmap : List (String × String))
    (acc : List (String × String) × List String) (lab : String) :
    stageLab cmap acc lab = acc
    ∨ (∃ orig, lab ≠ "" ∧ orig ≠ "" ∧
        dictGet cmap (normalize_name lab) = some orig ∧
        stageLab cmap acc lab = (dictInsert acc.1 orig "Yes", acc.2))
    ∨ stageLab cmap acc lab = (acc.1, acc.2 ++ [mismatchMsg (pyStrip lab)]) := by
  by_cases h0 : lab = ""
  · left
    rw [h0]
    rfl
  · cases hg : dictGet cmap (normalize_name lab) with
    | none => right; right; exact stageLab_unmatched acc h0 hg
    | some orig =>
      by_cases ho : orig = ""
      · right; right; subst ho; exact stageLab_matched_empty acc h0 hg
      · right; left; exact ⟨orig, h0, ho, rfl, stageLab_matched acc h0 hg ho⟩

theorem stageLabs_values (cmap : List (String × String)) :
    ∀ (labs : List String) (acc : List (String × String) × List String),
      (∀ p ∈ acc.1, p.2 = "Yes") →
      ∀ p ∈ (labs.foldl (stageLab cmap) acc).1, p.2 = "Yes" := by
  intro labs
  induction labs with
  | nil => intro acc hacc; exact hacc
  | cons lab labs ih =>
    intro acc hacc
    refine ih _ ?_
    rcases stageLab_cases cmap acc lab with h | ⟨orig, _, _, _, h⟩ | h <;> rw [h]
    · exact hacc
    · intro p hp
      rcases mem_dictInsert hp with h' | h'
      · exact hacc p h'
      · rw [h']
    · exact hacc

theorem stageLabs_keys_nodup (cmap : List (String × String)) :
    ∀ (labs : List String) (acc : List (String × String) × List String),
      (acc.1.map Prod.fst).Nodup →
      (((labs.foldl (stageLab cmap) acc).1).map Prod.fst).Nodup := by
  intro labs
  induction labs with
  | nil => intro acc hacc; exact hacc
  | cons lab labs ih =>
    intro acc hacc
    refine ih _ ?_
    rcases stageLab_cases cmap acc lab with h | ⟨orig, _, _, _, h⟩ | h <;> rw [h]
    · exact hacc
    · exact dictInsert_keys_nodup hacc orig "Yes"
    · exact hacc

theorem stageLabs_mem_Yes_mono (cmap : List (String × String)) :
    ∀ (labs : List String) (acc : List (String × String) × List String)
      (f : String), (f, "Yes") ∈ acc.1 →
      (f, "Yes") ∈ (labs.foldl (stageLab cmap) acc).1 := by
  intro labs
  induction labs with
  | nil => intro acc f hf; exact hf
  | cons lab labs ih =>
    intro acc f hf
    refine ih _ f ?_
    rcases stageLab_cases cmap acc lab with h | ⟨orig, _, _, _, h⟩ | h <;> rw [h]
    · exact hf
    · exact mem_Yes_dictInsert hf orig
    · exact hf

theorem stageLabs_stages (cmap : List (String × String)) :
    ∀ (labs : List String) (acc : List (String × String) × List String)
      (lab f : String), lab ∈ labs → lab ≠ "" →
      dictGet cmap (normalize_name lab) = some f → f ≠ "" →
      (f, "Yes") ∈ (labs.foldl (stageLab cmap) acc).1 := by
  intro labs
  induction labs with
  | nil => intro acc lab f h; cases h
  | cons lab' labs ih =>
    intro acc lab f hmem hne hget hf
    rcases List.mem_cons.mp hmem with rfl | hmem'
    · refine stageLabs_mem_Yes_mono cmap labs _ f ?_
      rw [stageLab_matched acc hne hget hf]
      exact mem_dictInsert_self _ _ _
    · exact ih _ lab f hmem' hne hget hf

theorem stageLabs_sources (cmap : List (String × String)) :
    ∀ (labs : List String) (acc : List (String × String) × List String)
      (p : String × String), p ∈ (labs.foldl (stageLab cmap) acc).1 →
      p ∈ acc.1 ∨ ∃ lab, lab ∈ labs ∧ lab ≠ "" ∧
        dictGet cmap (normalize_name lab) = some p.1 := by
  intro labs
  induction labs with
  | nil => intro acc p hp; exact Or.inl hp
  | cons lab labs ih =>
    intro acc p hp
    rcases ih _ p hp with h' | ⟨lab', h1, h2, h3⟩
    · rcases stageLab_cases cmap acc lab with h | ⟨orig, hlab, ho, hg, h⟩ | h
      · rw [h] at h'
        exact Or.inl h'
      · rw [h] at h'
        rcases mem_dictInsert h' with h'' | h''
        · exact Or.inl h''
        · exact Or.inr ⟨lab, List.mem_cons_self _ _, hlab, by rw [h'', hg]⟩
      · rw [h] at h'
        exact Or.inl h'
    · exact Or.inr ⟨lab', List.mem_cons_of_mem _ h1, h2, h3⟩

theorem stageLabs_mismatch_mono (cmap : List (String × String)) :
    ∀ (labs : List String) (acc : List (String × String) × List String)
      (m : String), m ∈ acc.2 → m ∈ (labs.foldl (stageLab cmap) acc).2 := by
  intro labs
  induction labs with
  | nil => intro acc m hm; exact hm
  | cons lab labs ih =>
    intro acc m hm
    refine ih _ m ?_
    rcases stageLab_cases cmap acc lab with h | ⟨orig, _, _, _, h⟩ | h <;> rw [h]
    · exact hm
    · exact hm
    · exact List.mem_append_left _ hm

theorem stageLabs_mismatch (cmap : List (String × String)) :
    ∀ (labs : List String) (acc : List (String × String) × List String)
      (lab : String), lab ∈ labs → lab ≠ "" →
      dictGet cmap (normalize_name lab) = none →
      mismatchMsg (pyStrip lab) ∈ (labs.foldl (stageLab cmap) acc).2 := by
  intro labs
  induction labs with
  | nil => intro acc lab h; cases h
  | cons lab' labs ih =>
    intro acc lab hmem hne hget
    rcases List.mem_cons.mp hmem with rfl | hmem'
    · refine stageLabs_mismatch_mono cmap labs _ _ ?_
      rw [stageLab_unmatched acc hne hget]
      exact List.mem_append_right _ (List.mem_singleton.mpr rfl)
    · exact ih _ lab hmem' hne hget

theorem effectiveLabs_stripped (s : String) :
    ∀ lab ∈ effectiveLabs s, pyStrip lab = lab := by
  intro lab hl
  rcases List.mem_map.mp hl with ⟨l, _, rfl⟩
  exact congrArg (fun d => (⟨d⟩ : String)) (stripBoth_idem isPySpace l)

/-! ## `processRow` case equations -/

theorem processRow_email_none (cmap : List (String × String)) (store : Store)
    (un lb : Option String) :
    processRow cmap store ⟨un, none, lb⟩ = emptyOutcome := rfl

theorem processRow_labs_none (cmap : List (String × String)) (store : Store)
    (un : Option String) (e : String) :
    processRow cmap store ⟨un, some e, none⟩ = emptyOutcome := rfl

theorem processRow_labs_blank (cmap : List (String × String)) (store : Store)
    (un : Option String) (e ls : String) (h : pyStrip ls = "") :
    processRow cmap store ⟨un, some e, some ls⟩ = emptyOutcome := by
  simp only [processRow]
  rw [if_pos h]

theorem processRow_no_payload (cmap : List (String × String)) (store : Store)
    (un : Option String) (e ls : String)
    (h1 : pyStrip ls ≠ "") (h2 : update_data cmap ls = []) :
    processRow cmap store ⟨un, some e, some ls⟩
      = ⟨[], 0, mismatch_entries cmap ls, []⟩ := by
  unfold update_data mismatch_entries at *
  simp only [processRow]
  rw [if_neg h1, if_pos h2]

theorem processRow_error (cmap : List (String × String)) (store : Store)
    (un : Option String) (e ls msg : String)
    (h1 : pyStrip ls ≠ "") (h2 : update_data cmap ls ≠ [])
    (h3 : store (pyStrip e) (update_data cmap ls) = .error msg) :
    processRow cmap store ⟨un, some e, some ls⟩
      = ⟨[failMsg (displayName ⟨un, some e, some ls⟩) msg], 0,
          mismatch_entries cmap ls, [(pyStrip e, update_data cmap ls)]⟩ := by
  unfold update_data mismatch_entries at *
  simp only [processRow]
  rw [if_neg h1, if_neg h2]
  simp only [h3]

theorem processRow_ok_nodata (cmap : List (String × String)) (store : Store)
    (un : Option String) (e ls : String) (cnt : Option Int)
    (h1 : pyStrip ls ≠ "") (h2 : update_data cmap ls ≠ [])
    (h3 : store (pyStrip e) (update_data cmap ls) = .ok ⟨[], cnt⟩) :
    processRow cmap store ⟨un, some e, some ls⟩
      = ⟨[failMsg (displayName ⟨un, some e, some ls⟩) indexErrMsg], 0,
          mismatch_entries cmap ls, [(pyStrip e, update_data cmap ls)]⟩ := by
  unfold update_data mismatch_entries at *
  simp only [processRow]
  rw [if_neg h1, if_neg h2]
  simp only [h3]

theorem processRow_success (cmap : List (String × String)) (store : Store)
    (un : Option String) (e ls : String) (n : String) (ns : List String)
    (c : Int)
    (h1 : pyStrip ls ≠ "") (h2 : update_data cmap ls ≠ [])
    (h3 : store (pyStrip e) (update_data cmap ls) = .ok ⟨n :: ns, some c⟩)
    (h5 : 0 < c) :
    processRow cmap store ⟨un, some e, some ls⟩
      = ⟨[successMsg (displayName ⟨un, some e, some ls⟩)
            (update_data cmap ls).length ((update_data cmap ls).map Prod.fst)],
          (update_data cmap ls).length, mismatch_entries cmap ls,
          [(pyStrip e, update_data cmap ls)]⟩ := by
  unfold update_data mismatch_entries at *
  simp only [processRow]
  rw [if_neg h1, if_neg h2]
  simp only [h3]
  rw [if_pos h5]

theorem processRow_nonew_zero (cmap : List (String × String)) (store : Store)
    (un : Option String) (e ls : String) (n : String) (ns : List String)
    (c : Int)
    (h1 : pyStrip ls ≠ "") (h2 : update_data cmap ls ≠ [])
    (h3 : store (pyStrip e) (update_data cmap ls) = .ok ⟨n :: ns, some c⟩)
    (h5 : ¬ 0 < c) :
    processRow cmap store ⟨un, some e, some ls⟩
      = ⟨[noNewMsg (displayName ⟨un, some e, some ls⟩)], 0,
          mismatch_entries cmap ls, [(pyStrip e, update_data cmap ls)]⟩ := by
  unfold update_data mismatch_entries at *
  simp only [processRow]
  rw [if_neg h1, if_neg h2]
  simp only [h3]
  rw [if_neg h5]

theorem processRow_nonew_none (cmap : List (String × String)) (store : Store)
    (un : Option String) (e ls : String) (n : String) (ns : List String)
    (h1 : pyStrip ls ≠ "") (h2 : update_data cmap ls ≠ [])
    (h3 : store (pyStrip e) (update_data cmap ls) = .ok ⟨n :: ns, none⟩) :
    processRow cmap store ⟨un, some e, some ls⟩
      = ⟨[noNewMsg (displayName ⟨un, some e, some ls⟩)], 0,
          mismatch_entries cmap ls, [(pyStrip e, update_data cmap ls)]⟩ := by
  unfold update_data mismatch_entries at *
  simp only [processRow]
  rw [if_neg h1, if_neg h2]
  simp only [h3]

/-- Whenever the staged payload is non-empty, exactly one update call is
issued, with the stripped email and the whole payload. -/
theorem processRow_calls (cmap : List (String × String)) (store : Store)
    (un : Option String) (e ls : String)
    (h1 : pyStrip ls ≠ "") (h2 : update_data cmap ls ≠ []) :
    (processRow cmap store ⟨un, some e, some ls⟩).calls
      = [(pyStrip e, update_data cmap ls)] := by
  cases hst : store (pyStrip e) (update_data cmap ls) with
  | error msg => rw [processRow_error cmap store un e ls msg h1 h2 hst]
  | ok resp =>
    obtain ⟨ds, cnt⟩ := resp
    cases ds with
    | nil => rw [processRow_ok_nodata cmap store un e ls cnt h1 h2 hst]
    | cons n ns =>
      cases cnt with
      | none => rw [processRow_nonew_none cmap store un e ls n ns h1 h2 hst]
      | some c =>
        by_cases h5 : 0 < c
        · rw [processRow_success cmap store un e ls n ns c h1 h2 hst h5]
        · rw [processRow_nonew_zero cmap store un e ls n ns c h1 h2 hst h5]

/-- The mismatch entries a processed row contributes are exactly those of
its label list, whatever the store does. -/
theorem processRow_mismatches (cmap : List (String × String)) (store : Store)
    (un : Option String) (e ls : String) (h1 : pyStrip ls ≠ "") :
    (processRow cmap store ⟨un, some e, some ls⟩).mismatches
      = mismatch_entries cmap ls := by
  by_cases h2 : update_data cmap ls = []
  · rw [processRow_no_payload cmap store un e ls h1 h2]
  · cases hst : store (pyStrip e) (update_data cmap ls) with
    | error msg => rw [processRow_error cmap store un e ls msg h1 h2 hst]
    | ok resp =>
      obtain ⟨ds, cnt⟩ := resp
      cases ds with
      | nil => rw [processRow_ok_nodata cmap store un e ls cnt h1 h2 hst]
      | cons n ns =>
        cases cnt with
        | none => rw [processRow_nonew_none cmap store un e ls n ns h1 h2 hst]
        | some c =>
          by_cases h5 : 0 < c
          · rw [processRow_success cmap store un e ls n ns c h1 h2 hst h5]
          · rw [processRow_nonew_zero cmap store un e ls n ns c h1 h2 hst h5]

/-! ## `runEngine` structure -/

theorem foldl_stepRow (cmap : List (String × String)) (store : Store) :
    ∀ (rows : List Row) (st : RunState),
      rows.foldl (stepRow cmap store) st =
        ⟨st.update_log ++ (runEngine cmap store rows).update_log,
         st.total_updates + (runEngine cmap store rows).total_updates,
         st.mismatched ++ (runEngine cmap store rows).mismatched,
         st.calls ++ (runEngine cmap store rows).calls⟩ := by
  intro rows
  induction rows with
  | nil =>
    intro st
    cases st
    simp [runEngine, initState, List.foldl]
  | cons r rows ih =>
    intro st
    show rows.foldl _ (stepRow cmap store st r) = _
    rw [ih (stepRow cmap store st r)]
    have h2 : runEngine cmap store (r :: rows) =
        ⟨(processRow cmap store r).log ++ (runEngine cmap store rows).update_log,
         (processRow cmap store r).updates + (runEngine cmap store rows).total_updates,
         (processRow cmap store r).mismatches ++ (runEngine cmap store rows).mismatched,
         (processRow cmap store r).calls ++ (runEngine cmap store rows).calls⟩ := by
      show rows.foldl _ (stepRow cmap store initState r) = _
      rw [ih (stepRow cmap store initState r)]
      simp [stepRow, initState]
    rw [h2]
    simp [stepRow, List.append_assoc, Nat.add_assoc]

theorem runEngine_cons (cmap : List (String × String)) (store : Store)
    (r : Row) (rows : List Row) :
    runEngine cmap store (r :: rows) =
      ⟨(processRow cmap store r).log ++ (runEngine cmap store rows).update_log,
       (processRow cmap store r).updates + (runEngine cmap store rows).total_updates,
       (processRow cmap store r).mismatches ++ (runEngine cmap store rows).mismatched,
       (processRow cmap store r).calls ++ (runEngine cmap store rows).calls⟩ := by
  show rows.foldl _ (stepRow cmap store initState r) = _
  rw [foldl_stepRow cmap store rows (stepRow cmap store initState r)]
  simp [stepRow, initState]

theorem runEngine_log (cmap : List (String × String)) (store : Store) :
    ∀ rows : List Row,
      (runEngine cmap store rows).update_log
        = rows.flatMap (fun r => (processRow cmap store r).log) := by
  intro rows
  induction rows with
  | nil => rfl
  | cons r rows ih => rw [runEngine_cons]; simp [ih]

theorem runEngine_mismatched (cmap : List (String × String)) (store : Store) :
    ∀ rows : List Row,
      (runEngine cmap store rows).mismatched
        = rows.flatMap (fun r => (processRow cmap store r).mismatches) := by
  intro rows
  induction rows with
  | nil => rfl
  | cons r rows ih => rw [runEngine_cons]; simp [ih]

theorem runEngine_calls (cmap : List (String × String)) (store : Store) :
    ∀ rows : List Row,
      (runEngine cmap store rows).calls
        = rows.flatMap (fun r => (processRow cmap store r).calls) := by
  intro rows
  induction rows with
  | nil => rfl
  | cons r rows ih => rw [runEngine_cons]; simp [ih]

theorem runEngine_total (cmap : List (String × String)) (store : Store) :
    ∀ rows : List Row,
      (runEngine cmap store rows).total_updates
        = (rows.map (fun r => (processRow cmap store r).updates)).sum := by
  intro rows
  induction rows with
  | nil => rfl
  | cons r rows ih => rw [runEngine_cons]; simp [ih]

/-! ## Ordering lemmas for the sorted mismatch report -/

theorem codeLe_cases {x y : Char} {xs ys : List Char}
    (h : codeLe (x :: xs) (y :: ys) = true) :
    x.toNat < y.toNat ∨ (x.toNat = y.toNat ∧ codeLe xs ys = true) := by
  by_cases h1 : x.toNat < y.toNat
  · exact Or.inl h1
  · by_cases h2 : x.toNat = y.toNat
    · simp only [codeLe, if_neg h1, if_pos h2] at h
      exact Or.inr ⟨h2, h⟩
    · simp only [codeLe, if_neg h1, if_neg h2] at h
      cases h

theorem codeLe_total : ∀ a b : List Char, codeLe a b = true ∨ codeLe b a = true := by
  intro a
  induction a with
  | nil => intro b; left; rfl
  | cons x xs ih =>
    intro b
    cases b with
    | nil => right; rfl
    | cons y ys =>
      simp only [codeLe]
      rcases Nat.lt_trichotomy x.toNat y.toNat with h | h | h
      · left; rw [if_pos h]
      · rcases ih ys with h' | h'
        · left; rw [if_neg (by omega), if_pos h]; exact h'
        · right; rw [if_neg (by omega), if_pos h.symm]; exact h'
      · right; rw [if_pos h]

theorem codeLe_trans : ∀ a b c : List Char, codeLe a b = true →
    codeLe b c = true → codeLe a c = true := by
  intro a
  induction a with
  | nil => intro b c _ _; rfl
  | cons x xs ih =>
    intro b c hab hbc
    cases b with
    | nil => simp [codeLe] at hab
    | cons y ys =>
      cases c with
      | nil => simp [codeLe] at hbc
      | cons z zs =>
        rcases codeLe_cases hab with h | ⟨h, hxs⟩ <;>
          rcases codeLe_cases hbc with h' | ⟨h', hys⟩ <;>
          simp only [codeLe]
        · rw [if_pos (by omega)]
        · rw [if_pos (by omega)]
        · rw [if_pos (by omega)]
        · rw [if_neg (by omega), if_pos (by omega)]
          exact ih ys zs hxs hys

theorem strLe_total : ∀ a b : String, strLe a b = true ∨ strLe b a = true :=
  fun a b => codeLe_total a.data b.data

theorem strLe_trans : ∀ a b c : String, strLe a b = true → strLe b c = true →
    strLe a c = true :=
  fun a b c => codeLe_trans a.data b.data c.data

theorem mem_sortedMismatches {m : String} {msgs : List String} :
    m ∈ sortedMismatches msgs ↔ m ∈ msgs := by
  unfold sortedMismatches
  rw [(List.perm_insertionSort _ _).mem_iff]
  exact List.mem_dedup

theorem sortedMismatches_nodup (msgs : List String) :
    (sortedMismatches msgs).Nodup :=
  (List.perm_insertionSort _ _).nodup_iff.mpr (List.nodup_dedup msgs)

theorem sortedMismatches_sorted (msgs : List String) :
    List.Sorted (fun a b => strLe a b = true) (sortedMismatches msgs) := by
  haveI : IsTotal String (fun a b => strLe a b = true) := ⟨strLe_total⟩
  haveI : IsTrans String (fun a b => strLe a b = true) :=
    ⟨fun a b c => strLe_trans a b c⟩
  exact List.sorted_insertionSort _ _

/-! ## Claim theorems -/

/-- C4: normalization is idempotent — `normalize(normalize(x)) ==
normalize(x)` for every input string, so normalizing an already-normalized
key yields itself. -/
theorem normalize_name_idem (s : String) :
    normalize_name (normalize_name s) = normalize_name s :=
  congrArg (fun d => (⟨d⟩ : String)) (normalizeL_idem s.data)

/-- C9: normalization is insensitive to case and to the `[Skill Badge]`
bracket tag: for every string `s`,
`normalize_name ("[Skill Badge] " ++ s) = normalize_name (pyLower s)`;
in particular `normalize_name "[Skill Badge] Foo" = normalize_name "foo"`. -/
theorem normalize_name_tag_insensitive :
    (∀ s : String,
      normalize_name ("[Skill Badge] " ++ s) = normalize_name (pyLower s))
    ∧ normalize_name "[Skill Badge] Foo" = normalize_name "foo" := by
  constructor
  · intro s
    have hd : ("[Skill Badge] " ++ s).data = "[Skill Badge] ".data ++ s.data := by
      cases s
      rfl
    show (⟨normalizeL ("[Skill Badge] " ++ s).data⟩ : String)
        = ⟨normalizeL (s.data.map pyLowerChar)⟩
    rw [hd, normalizeL_skill_badge]
  · rfl

/-- C2: a row whose email cell is blank/absent (pandas `NaN`, modelled as
`none`) issues no store call, appends no log line, and contributes
nothing to any result bucket. -/
theorem blank_email_row_skipped (cmap : List (String × String))
    (store : Store) (r : Row) (h : r.email = none) :
    processRow cmap store r = emptyOutcome := by
  obtain ⟨un, em, lb⟩ := r
  have h' : em = none := h
  subst h'
  rfl

/-- C2 witness. -/
theorem blank_email_row_skipped_witness :
    (Row.mk (some "U") none (some "Foo")).email = none ∧
      processRow cmapFB storeOk1 ⟨some "U", none, some "Foo"⟩ = emptyOutcome :=
  ⟨rfl, blank_email_row_skipped cmapFB storeOk1 _ rfl⟩

/-- C8: if any required input column is absent, `upload_file` fails with
the fatal missing-columns error and zero store update calls are issued. -/
theorem missing_columns_fatal (cols : List String) (rest : List (List String))
    (store : Store) (input : UploadInput)
    (h : requiredColumns.all (fun c => input.columns.contains c) = false) :
    upload_file (cols :: rest) store input = (.error missingColumnsMsg, []) := by
  simp only [upload_file]
  rw [h]
  simp

/-- C8 witness: a file having only a `User Name` column, with a row that
would otherwise produce an update call. -/
theorem missing_columns_fatal_witness :
    requiredColumns.all
      (fun c => (UploadInput.mk ["User Name"]
        [⟨some "U", some "u@x.com", some "Foo"⟩]).columns.contains c) = false
    ∧ upload_file [["Foo"]] storeOk1
        ⟨["User Name"], [⟨some "U", some "u@x.com", some "Foo"⟩]⟩
      = (.error missingColumnsMsg, []) :=
  ⟨rfl, missing_columns_fatal ["Foo"] [] storeOk1 _ rfl⟩

/-- C7 counterexample: the claim says the email is used exactly as given
in the input row, but for the cell `" a@X.com "` the code filters on the
stripped string `"a@X.com"` — not the cell text. -/
theorem email_not_as_given :
    (processRow cmapFB storeOk1 ⟨some "U", some " a@X.com ", some "Foo"⟩).calls
      = [("a@X.com", [("Foo", "Yes")])] ∧ ("a@X.com" : String) ≠ " a@X.com " :=
  ⟨rfl, by decide⟩

/-- C7 (amended): the equality-filter email of every issued update call is
the row's email cell with surrounding whitespace stripped, otherwise
unaltered — case-sensitive and never normalized. -/
theorem email_stripped_for_filter (cmap : List (String × String))
    (store : Store) (r : Row) (e : String) (h : r.email = some e) :
    ∀ c ∈ (processRow cmap store r).calls, c.1 = pyStrip e := by
  obtain ⟨un, em, lb⟩ := r
  have h' : em = some e := h
  subst h'
  cases lb with
  | none =>
    intro c hc
    rw [processRow_labs_none] at hc
    simp [emptyOutcome] at hc
  | some ls =>
    by_cases h1 : pyStrip ls = ""
    · intro c hc
      rw [processRow_labs_blank cmap store un e ls h1] at hc
      simp [emptyOutcome] at hc
    · by_cases h2 : update_data cmap ls = []
      · intro c hc
        rw [processRow_no_payload cmap store un e ls h1 h2] at hc
        simp at hc
      · intro c hc
        rw [processRow_calls cmap store un e ls h1 h2] at hc
        rw [List.mem_singleton.mp hc]

/-- C7 (amended) witness. -/
theorem email_stripped_for_filter_witness :
    (Row.mk (some "U") (some " a@X.com ") (some "Foo")).email
      = some " a@X.com "
    ∧ (("a@X.com", [("Foo", "Yes")]) : Call).1 = pyStrip " a@X.com " :=
  ⟨rfl, email_stripped_for_filter cmapFB storeOk1
    ⟨some "U", some " a@X.com ", some "Foo"⟩ " a@X.com " rfl
    ("a@X.com", [("Foo", "Yes")]) (by decide)⟩

/-- C5: a store error on one row is caught locally, logged as a FAILED
line for that row, and every row before and after is still processed in
order — one row's failure never aborts the run. -/
theorem store_error_row_isolated (cmap : List (String × String))
    (store : Store) (pre post : List Row) (un : Option String)
    (e ls msg : String)
    (h1 : pyStrip ls ≠ "") (h2 : update_data cmap ls ≠ [])
    (h3 : store (pyStrip e) (update_data cmap ls) = .error msg) :
    (runEngine cmap store (pre ++ ⟨un, some e, some ls⟩ :: post)).update_log
      = (runEngine cmap store pre).update_log
        ++ failMsg (displayName ⟨un, some e, some ls⟩) msg
          :: (runEngine cmap store post).update_log := by
  rw [runEngine_log, runEngine_log, runEngine_log]
  simp only [List.flatMap_append, List.flatMap_cons]
  rw [processRow_error cmap store un e ls msg h1 h2 h3]
  rfl

/-- C5 witness: three rows; the middle one's store call raises, the first
and third still produce their own log lines. -/
theorem store_error_row_isolated_witness :
    pyStrip "Foo" ≠ ""
    ∧ update_data cmapFB "Foo" ≠ []
    ∧ storeSel (pyStrip "bad@x.com") (update_data cmapFB "Foo") = .error "boom"
    ∧ (runEngine cmapFB storeSel
        ([⟨some "A", some "a@x.com", some "Foo"⟩]
          ++ ⟨some "B", some "bad@x.com", some "Foo"⟩
            :: [⟨some "C", some "c@x.com", some "Bar"⟩])).update_log
      = (runEngine cmapFB storeSel [⟨some "A", some "a@x.com", some "Foo"⟩]).update_log
        ++ failMsg (displayName ⟨some "B", some "bad@x.com", some "Foo"⟩) "boom"
          :: (runEngine cmapFB storeSel [⟨some "C", some "c@x.com", some "Bar"⟩]).update_log :=
  ⟨by decide, by decide, rfl,
    store_error_row_isolated cmapFB storeSel _ _ (some "B") "bad@x.com" "Foo"
      "boom" (by decide) (by decide) rfl⟩

/-- C3: every label whose normalized form is a key of the schema map is
staged as field → "Yes" in the row's payload (field names of a real
schema are non-empty); all staged values are "Yes"; and when the payload
is non-empty exactly one update call is issued, filtering by the exact
(stripped) email and carrying the whole payload. -/
theorem matched_labels_staged_one_call (cmap : List (String × String))
    (store : Store) (un : Option String) (e ls : String)
    (h1 : pyStrip ls ≠ "")
    (hschema : ∀ p ∈ cmap, p.2 ≠ "") :
    (∀ lab ∈ effectiveLabs ls, lab ≠ "" →
      ∀ f, dictGet cmap (normalize_name lab) = some f →
        (f, "Yes") ∈ update_data cmap ls)
    ∧ (∀ p ∈ update_data cmap ls, p.2 = "Yes")
    ∧ (update_data cmap ls ≠ [] →
        (processRow cmap store ⟨un, some e, some ls⟩).calls
          = [(pyStrip e, update_data cmap ls)]) := by
  refine ⟨?_, ?_, ?_⟩
  · intro lab hmem hne f hget
    have hf : f ≠ "" := by
      rcases dictGet_mem hget with ⟨p, hp, _, hv⟩
      rw [← hv]
      exact hschema p hp
    exact stageLabs_stages cmap (effectiveLabs ls) ([], []) lab f hmem hne hget hf
  · intro p hp
    exact stageLabs_values cmap (effectiveLabs ls) ([], [])
      (by intro q hq; simp at hq) p hp
  · intro h2
    exact processRow_calls cmap store un e ls h1 h2

/-- C3 witness: the spec's example — labels `"Foo | [Skill Badge] Bar"`
against schema fields `Foo` and `Bar` stage exactly both fields and issue
one call for `"a@x.com"`. -/
theorem matched_labels_staged_one_call_witness :
    ("Foo", "Yes") ∈ update_data cmapFB "Foo | [Skill Badge] Bar"
    ∧ (processRow cmapFB storeOk1
        ⟨some "U", some "a@x.com", some "Foo | [Skill Badge] Bar"⟩).calls
      = [("a@x.com", [("Foo", "Yes"), ("Bar", "Yes")])] := by
  have h := matched_labels_staged_one_call cmapFB storeOk1 (some "U")
    "a@x.com" "Foo | [Skill Badge] Bar" (by decide) (by decide)
  refine ⟨h.1 "Foo" (by decide) (by decide) "Foo" rfl, ?_⟩
  rw [h.2.2 (by decide)]
  rfl

/-- C10: the payload is keyed by canonical field name, so its keys are
distinct (labels normalizing to the same key collapse into one entry),
and on success both the log line's count and the amount added to the run
total equal the number of distinct fields in the payload. -/
theorem payload_collapses_distinct_fields (cmap : List (String × String))
    (store : Store) (un : Option String) (e ls : String) (n : String)
    (ns : List String) (c : Int)
    (h1 : pyStrip ls ≠ "") (h2 : update_data cmap ls ≠ [])
    (h3 : store (pyStrip e) (update_data cmap ls) = .ok ⟨n :: ns, some c⟩)
    (h5 : 0 < c) :
    ((update_data cmap ls).map Prod.fst).Nodup
    ∧ (processRow cmap store ⟨un, some e, some ls⟩).log
        = [successMsg (displayName ⟨un, some e, some ls⟩)
            (update_data cmap ls).length ((update_data cmap ls).map Prod.fst)]
    ∧ (processRow cmap store ⟨un, some e, some ls⟩).updates
        = (update_data cmap ls).length := by
  refine ⟨?_, ?_, ?_⟩
  · exact stageLabs_keys_nodup cmap (effectiveLabs ls) ([], []) (by simp)
  · rw [processRow_success cmap store un e ls n ns c h1 h2 h3 h5]
  · rw [processRow_success cmap store un e ls n ns c h1 h2 h3 h5]

/-- C10 witness: `"Foo"` and `"foo!"` both normalize to `foo`; the payload
collapses to one entry and the success line counts 1 field, not 2
labels. -/
theorem payload_collapses_distinct_fields_witness :
    update_data cmapFB "Foo | foo!" = [("Foo", "Yes")]
    ∧ (processRow cmapFB storeOk1
        ⟨some "U", some "a@x.com", some "Foo | foo!"⟩).log
      = ["Updated 1 labs for 'U': Foo."]
    ∧ (processRow cmapFB storeOk1
        ⟨some "U", some "a@x.com", some "Foo | foo!"⟩).updates = 1 := by
  have h := payload_collapses_distinct_fields cmapFB storeOk1 (some "U")
    "a@x.com" "Foo | foo!" "N" [] 1 (by decide) (by decide) rfl (by decide)
  refine ⟨rfl, ?_, ?_⟩
  · rw [h.2.1]
    rfl
  · rw [h.2.2]
    rfl

/-- C6: a label whose normalized form misses the schema map is never
staged (every staged field stems from a matched label); its trimmed text
appears (inside its mismatch message) in the run-global mismatch set, and
the final report of that set is deduplicated and sorted. -/
theorem unmatched_label_reporting (cmap : List (String × String))
    (store : Store) (pre post : List Row) (un : Option String)
    (e ls lab : String)
    (h1 : pyStrip ls ≠ "") (hmem : lab ∈ effectiveLabs ls) (hne : lab ≠ "")
    (hget : dictGet cmap (normalize_name lab) = none) :
    (∀ p ∈ update_data cmap ls, ∃ lab', lab' ∈ effectiveLabs ls ∧ lab' ≠ ""
        ∧ dictGet cmap (normalize_name lab') = some p.1)
    ∧ mismatchMsg lab ∈
        (runEngine cmap store (pre ++ ⟨un, some e, some ls⟩ :: post)).mismatched
    ∧ mismatchMsg lab ∈ sortedMismatches
        ((runEngine cmap store (pre ++ ⟨un, some e, some ls⟩ :: post)).mismatched)
    ∧ (sortedMismatches
        ((runEngine cmap store (pre ++ ⟨un, some e, some ls⟩ :: post)).mismatched)).Nodup
    ∧ List.Sorted (fun a b => strLe a b = true)
        (sortedMismatches
          ((runEngine cmap store (pre ++ ⟨un, some e, some ls⟩ :: post)).mismatched)) := by
  have hrowmm : mismatchMsg lab ∈ mismatch_entries cmap ls := by
    have h := stageLabs_mismatch cmap (effectiveLabs ls) ([], []) lab hmem hne hget
    rwa [effectiveLabs_stripped ls lab hmem] at h
  have hrun : mismatchMsg lab ∈
      (runEngine cmap store (pre ++ ⟨un, some e, some ls⟩ :: post)).mismatched := by
    rw [runEngine_mismatched]
    refine List.mem_flatMap.mpr ⟨⟨un, some e, some ls⟩, ?_, ?_⟩
    · exact List.mem_append_right _ (List.mem_cons_self _ _)
    · rw [processRow_mismatches cmap store un e ls h1]
      exact hrowmm
  refine ⟨?_, hrun, mem_sortedMismatches.mpr hrun,
    sortedMismatches_nodup _, sortedMismatches_sorted _⟩
  intro p hp
  rcases stageLabs_sources cmap (effectiveLabs ls) ([], []) p hp with h' | h'
  · simp at h'
  · rcases h' with ⟨lab', ha, hb, hc⟩
    exact ⟨lab', ha, hb, hc⟩

/-- C6 witness: `"Qux"` misses the one-field schema; its message lands in
the run-global set and the sorted report is exactly that one message. -/
theorem unmatched_label_reporting_witness :
    mismatchMsg "Qux" ∈
      (runEngine (column_map ["Foo"]) storeOk1
        [⟨some "U", some "a@x.com", some "Foo | Qux"⟩]).mismatched
    ∧ sortedMismatches
        ((runEngine (column_map ["Foo"]) storeOk1
          [⟨some "U", some "a@x.com", some "Foo | Qux"⟩]).mismatched)
      = [mismatchMsg "Qux"] := by
  have h := unmatched_label_reporting (column_map ["Foo"]) storeOk1 [] []
    (some "U") "a@x.com" "Foo | Qux" "Qux" (by decide) (by decide) (by decide) rfl
  exact ⟨h.2.1, rfl⟩

/-- C1 (code bug): at the failing input — a row whose store update
returns an empty record list with count 0, e.g. an email absent from the
table — the code appends a FAILED line carrying the `IndexError` message
from the debug `print(data[0]["name"])`, not the claimed
"no new updates" line. -/
theorem zero_count_row_logs_failed_not_nonew :
    (processRow (column_map ["Foo"]) storeEmpty0
        ⟨some "U", some "u@x.com", some "Foo"⟩).log
      = [failMsg "U" indexErrMsg]
    ∧ failMsg "U" indexErrMsg ≠ noNewMsg "U" :=
  ⟨rfl, by decide⟩

end GDGAdmin
